import Mathlib

/-!
Verification of the history-rewriting engine of `git-submerge` (src/main.rs).

The embedding models the git object store shallowly:
  * trees and blobs are content-addressed, so a tree object is identified
    with its value (`PTree` / `PForest`); two trees have the same object ID
    iff they are equal as values;
  * commit IDs are abstract strings (`Oid`); commit objects live in an
    association-list store;
  * gitlink entries carry the foreign commit ID as a string;
  * fallible library calls that the source handles are `Except`/`Option`;
    `expect`/`panic!`-style aborts in the source are modelled as `none`.
-/

/-- Abstract object identifier for commits (20-byte hash in git). -/
abbrev Oid := String

/-- git filemode marking a gitlink (submodule reference) tree entry. -/
def gitlinkMode : Nat := 0o160000

/-- git filemode marking a subtree (directory) entry. -/
def subtreeMode : Nat := 0o040000

mutual
/-- A tree entry's content: a file/gitlink payload (`leaf mode oid`;
for a gitlink the `oid` is the foreign commit ID, otherwise it is the
blob's content, which determines the blob ID by content addressing),
or a directory (`node`). -/
inductive PTree where
  | leaf : Nat → String → PTree
  | node : PForest → PTree

/-- The entry list of a directory: `(name, child)` pairs in order. -/
inductive PForest where
  | nil : PForest
  | cons : String → PTree → PForest → PForest
end

mutual
/-- Boolean equality on `PTree`. -/
def PTree.beq : PTree → PTree → Bool
  | .leaf m o, .leaf m' o' => m == m' && o == o'
  | .node f, .node f' => PForest.beq f f'
  | _, _ => false

/-- Boolean equality on `PForest`. -/
def PForest.beq : PForest → PForest → Bool
  | .nil, .nil => true
  | .cons n t f, .cons n' t' f' => n == n' && PTree.beq t t' && PForest.beq f f'
  | _, _ => false
end

mutual
theorem ptreeBeqIff : ∀ a b : PTree, PTree.beq a b = true ↔ a = b
  | .leaf m o, .leaf m' o' => by
    simp [PTree.beq]
  | .leaf _ _, .node _ => by
    simp [PTree.beq]
  | .node _, .leaf _ _ => by
    simp [PTree.beq]
  | .node f, .node f' => by
    simp [PTree.beq, pforestBeqIff f f']

theorem pforestBeqIff : ∀ a b : PForest, PForest.beq a b = true ↔ a = b
  | .nil, .nil => by simp [PForest.beq]
  | .nil, .cons _ _ _ => by simp [PForest.beq]
  | .cons _ _ _, .nil => by simp [PForest.beq]
  | .cons n t f, .cons n' t' f' => by
    simp [PForest.beq, ptreeBeqIff t t', pforestBeqIff f f', and_assoc]
end

instance : DecidableEq PTree :=
  fun a b => decidable_of_iff (PTree.beq a b = true) (ptreeBeqIff a b)

instance : DecidableEq PForest :=
  fun a b => decidable_of_iff (PForest.beq a b = true) (pforestBeqIff a b)

/-- The filemode git reports for a tree entry (`TreeEntry::filemode`). -/
def PTree.filemode : PTree → Nat
  | .leaf m _ => m
  | .node _ => subtreeMode

/-- Look up the entry with the given name in a directory
(`Tree::get_name` / descending one level of `Tree::get_path`). -/
def PForest.find? : PForest → String → Option PTree
  | .nil, _ => none
  | .cons n t f, s => if n = s then some t else f.find? s

/-- Remove the entry with the given name (`TreeBuilder::remove`;
tree entry names are unique in git, so removing every match is faithful). -/
def PForest.removeName : PForest → String → PForest
  | .nil, _ => .nil
  | .cons n t f, s => if n = s then f.removeName s else .cons n t (f.removeName s)

/-- Insert or replace the entry with the given name (`TreeBuilder::insert`). -/
def PForest.setName : PForest → String → PTree → PForest
  | .nil, s, t' => .cons s t' .nil
  | .cons n t f, s, t' => if n = s then .cons n t' f else .cons n t (f.setName s t')

/-- An in-memory git index entry: a nonempty slash-split path
(`head :: rest`), the filemode, and the file payload (blob content or
gitlink target), as produced by `Index::read_tree`. -/
structure IdxEntry where
  head : String
  rest : List String
  mode : Nat
  oid : String
deriving DecidableEq

mutual
/-- The index entries contributed by a single tree entry named `n`
(`Index::read_tree` recursion). -/
def entryIdx (n : String) : PTree → List IdxEntry
  | .leaf m o => [⟨n, [], m, o⟩]
  | .node f => (flattenF f).map (fun e => ⟨n, e.head :: e.rest, e.mode, e.oid⟩)

/-- Flattening a tree into its index entries, in tree order
(`Index::read_tree` over a whole tree). -/
def flattenF : PForest → List IdxEntry
  | .nil => []
  | .cons n t f => entryIdx n t ++ flattenF f
end

/-- Strip the leading path segment off an index entry; entries whose path
is a single segment are consumed at the current level. -/
def stripHead (e : IdxEntry) : Option IdxEntry :=
  match e.rest with
  | [] => none
  | h :: tl => some ⟨h, tl, e.mode, e.oid⟩

/-- Size measure of an index entry used for termination of tree writing. -/
def entryMu (e : IdxEntry) : Nat := 2 + e.rest.length

/-- Total size measure of an index entry list. -/
def listMu (l : List IdxEntry) : Nat := (l.map entryMu).sum

theorem listMu_append (l1 l2 : List IdxEntry) :
    listMu (l1 ++ l2) = listMu l1 + listMu l2 := by
  simp [listMu]

theorem listMu_cons (e : IdxEntry) (l : List IdxEntry) :
    listMu (e :: l) = entryMu e + listMu l := by
  simp [listMu]

theorem listMu_takeWhile_le (p : IdxEntry → Bool) (l : List IdxEntry) :
    listMu (l.takeWhile p) ≤ listMu l := by
  induction l with
  | nil => simp [List.takeWhile]
  | cons e l ih =>
    by_cases h : p e
    · simp [List.takeWhile, h, listMu_cons]
      omega
    · simp [List.takeWhile, h, listMu, listMu_cons]

theorem listMu_dropWhile_le (p : IdxEntry → Bool) (l : List IdxEntry) :
    listMu (l.dropWhile p) ≤ listMu l := by
  induction l with
  | nil => simp [List.dropWhile]
  | cons e l ih =>
    by_cases h : p e
    · simp [List.dropWhile, h, listMu_cons]
      omega
    · simp [List.dropWhile, h]

theorem stripHead_none_mu (e : IdxEntry) (h : stripHead e = none) : entryMu e = 2 := by
  unfold stripHead at h
  cases he : e.rest with
  | nil => simp [entryMu, he]
  | cons a as => rw [he] at h; exact absurd h (by simp)

theorem stripHead_some_mu (e b : IdxEntry) (h : stripHead e = some b) :
    entryMu b + 1 = entryMu e := by
  unfold stripHead at h
  cases he : e.rest with
  | nil => rw [he] at h; exact absurd h (by simp)
  | cons a as =>
    rw [he] at h
    cases h
    simp only [entryMu, he, List.length_cons]
    omega

theorem listMu_filterMap_strip_add (l : List IdxEntry) :
    listMu (l.filterMap stripHead) + l.length ≤ listMu l := by
  induction l with
  | nil => simp [listMu]
  | cons e l ih =>
    rw [List.filterMap_cons]
    cases hse : stripHead e with
    | none =>
      have h2 := stripHead_none_mu e hse
      simp only [listMu_cons, List.length_cons]
      omega
    | some b =>
      have h2 := stripHead_some_mu e b hse
      simp only [listMu_cons, List.length_cons]
      omega

theorem listMu_filterMap_strip_lt (l : List IdxEntry) (h : l ≠ []) :
    listMu (l.filterMap stripHead) < listMu l := by
  have h1 := listMu_filterMap_strip_add l
  have h2 : 0 < l.length := List.length_pos.mpr h
  omega

mutual
/-- Write an index-entry list back into a tree (`Index::write_tree_to`):
consecutive entries sharing a leading segment become one directory entry.
For valid git indices (sorted, D/F-conflict-free) this reproduces exactly
what libgit2 writes. -/
def writeF : List IdxEntry → PForest
  | [] => .nil
  | e :: rest =>
    .cons e.head (buildEntry (e :: rest.takeWhile (fun x => x.head == e.head)))
      (writeF (rest.dropWhile (fun x => x.head == e.head)))
termination_by l => (listMu l, 1)
decreasing_by
  · have h1 : listMu (e :: rest.takeWhile (fun x => x.head == e.head)) ≤ listMu (e :: rest) := by
      rw [listMu_cons, listMu_cons]
      have := listMu_takeWhile_le (fun x => x.head == e.head) rest
      omega
    rcases lt_or_eq_of_le h1 with h | h
    · exact Prod.Lex.left _ _ h
    · rw [h]
      exact Prod.Lex.right _ (by omega)
  · apply Prod.Lex.left
    have h1 := listMu_dropWhile_le (fun x => x.head == e.head) rest
    rw [listMu_cons]
    have h2 : 0 < entryMu e := by simp [entryMu]
    omega

/-- Build a single tree entry from the index entries sharing its name:
a lone single-segment entry is a file/gitlink, anything else a directory. -/
def buildEntry : List IdxEntry → PTree
  | [] => .node .nil
  | e :: rest =>
    match e.rest, rest with
    | [], [] => .leaf e.mode e.oid
    | _, r => .node (writeF ((e :: r).filterMap stripHead))
termination_by l => (listMu l, 0)
decreasing_by
  apply Prod.Lex.left
  apply listMu_filterMap_strip_lt
  simp
end

/-- The entry names of a directory, in order. -/
def namesF : PForest → List String
  | .nil => []
  | .cons n _ f => n :: namesF f

mutual
/-- A tree entry is canonical when every directory below it is nonempty and
directories have pairwise-distinct entry names. Every tree git itself writes
from an index is canonical (git cannot represent empty directories and tree
entry names are unique). -/
def canonT : PTree → Bool
  | .leaf _ _ => true
  | .node f => (match f with | .nil => false | .cons _ _ _ => true) && canonF f

/-- Canonicity of a directory entry list: see `canonT`. -/
def canonF : PForest → Bool
  | .nil => true
  | .cons n t f => canonT t && !((namesF f).contains n) && canonF f
end

theorem entryIdx_head (n : String) (t : PTree) :
    ∀ x ∈ entryIdx n t, x.head = n := by
  cases t with
  | leaf m o => simp [entryIdx]
  | node f =>
    intro x hx
    simp only [entryIdx, List.mem_map] at hx
    obtain ⟨e, _, he⟩ := hx
    rw [← he]

theorem flattenF_head_mem_names :
    ∀ f : PForest, ∀ x ∈ flattenF f, x.head ∈ namesF f
  | .nil => by simp [flattenF, namesF]
  | .cons n t f => by
    intro x hx
    simp only [flattenF, List.mem_append] at hx
    rcases hx with hx | hx
    · simp [namesF, entryIdx_head n t x hx]
    · simp [namesF, flattenF_head_mem_names f x hx]

mutual
theorem entryIdx_ne_nil (n : String) :
    ∀ t : PTree, canonT t = true → entryIdx n t ≠ []
  | .leaf m o, _ => by simp [entryIdx]
  | .node f, h => by
    have hf : f ≠ .nil ∧ canonF f = true := by
      cases f with
      | nil => simp [canonT] at h
      | cons n' t' f' => simp only [canonT, Bool.and_eq_true] at h; exact ⟨by simp, h.2⟩
    have := flattenF_ne_nil f hf.2 hf.1
    simp only [entryIdx, ne_eq, List.map_eq_nil_iff]
    exact this

theorem flattenF_ne_nil :
    ∀ f : PForest, canonF f = true → f ≠ .nil → flattenF f ≠ []
  | .nil, _, h => absurd rfl h
  | .cons n t f, h, _ => by
    simp only [canonF, Bool.and_eq_true] at h
    have h1 := entryIdx_ne_nil n t h.1.1
    simp only [flattenF, ne_eq, List.append_eq_nil]
    intro hc
    exact h1 hc.1
end

theorem filterMap_strip_reattach (n : String) (l : List IdxEntry) :
    (l.map (fun e => (⟨n, e.head :: e.rest, e.mode, e.oid⟩ : IdxEntry))).filterMap
      stripHead = l := by
  induction l with
  | nil => simp
  | cons e l ih =>
    obtain ⟨h, r, m, o⟩ := e
    simp [stripHead, ih]

theorem takeWhile_append_all (p : IdxEntry → Bool) (l1 l2 : List IdxEntry)
    (h : ∀ x ∈ l1, p x = true) :
    (l1 ++ l2).takeWhile p = l1 ++ l2.takeWhile p := by
  induction l1 with
  | nil => simp
  | cons e l1 ih =>
    have he : p e = true := h e (by simp)
    simp [List.takeWhile_cons, he, ih (fun x hx => h x (by simp [hx]))]

theorem dropWhile_append_all (p : IdxEntry → Bool) (l1 l2 : List IdxEntry)
    (h : ∀ x ∈ l1, p x = true) :
    (l1 ++ l2).dropWhile p = l2.dropWhile p := by
  induction l1 with
  | nil => simp
  | cons e l1 ih =>
    have he : p e = true := h e (by simp)
    simp [List.dropWhile_cons, he, ih (fun x hx => h x (by simp [hx]))]

theorem takeWhile_nil_of_all_false (p : IdxEntry → Bool) (l : List IdxEntry)
    (h : ∀ x ∈ l, p x = false) : l.takeWhile p = [] := by
  cases l with
  | nil => simp
  | cons e l => simp [List.takeWhile_cons, h e (by simp)]

theorem dropWhile_id_of_all_false (p : IdxEntry → Bool) (l : List IdxEntry)
    (h : ∀ x ∈ l, p x = false) : l.dropWhile p = l := by
  cases l with
  | nil => simp
  | cons e l => simp [List.dropWhile_cons, h e (by simp)]

mutual
theorem buildEntry_entryIdx (n : String) :
    ∀ t : PTree, canonT t = true → buildEntry (entryIdx n t) = t
  | .leaf m o, _ => by
    simp [entryIdx, buildEntry]
  | .node f, h => by
    have hf : f ≠ .nil ∧ canonF f = true := by
      cases f with
      | nil => simp [canonT] at h
      | cons n' t' f' =>
        simp only [canonT, Bool.and_eq_true] at h
        exact ⟨by simp, h.2⟩
    have hflat := flattenF_ne_nil f hf.2 hf.1
    obtain ⟨x, xs, hx⟩ := List.exists_cons_of_ne_nil hflat
    have hrw : entryIdx n (.node f)
        = (⟨n, x.head :: x.rest, x.mode, x.oid⟩ : IdxEntry) ::
          xs.map (fun e => (⟨n, e.head :: e.rest, e.mode, e.oid⟩ : IdxEntry)) := by
      simp [entryIdx, hx]
    rw [hrw, buildEntry]
    rw [List.filterMap_cons]
    simp only [stripHead]
    rw [filterMap_strip_reattach n xs]
    have hxeta : (⟨x.head, x.rest, x.mode, x.oid⟩ : IdxEntry) = x := rfl
    rw [hxeta, ← hx, writeF_flattenF f hf.2]
    simp

theorem writeF_flattenF :
    ∀ f : PForest, canonF f = true → writeF (flattenF f) = f
  | .nil, _ => by simp [flattenF, writeF]
  | .cons n t f, h => by
    simp only [canonF, Bool.and_eq_true] at h
    obtain ⟨⟨hct, hnotmem⟩, hcf⟩ := h
    have hnn : n ∉ namesF f := by simpa using hnotmem
    have hne := entryIdx_ne_nil n t hct
    obtain ⟨x, xs, hx⟩ := List.exists_cons_of_ne_nil hne
    have hxhead : x.head = n := entryIdx_head n t x (by rw [hx]; simp)
    have hxsheads : ∀ y ∈ xs, y.head = n := fun y hy =>
      entryIdx_head n t y (by rw [hx]; simp [hy])
    have hfl : flattenF (.cons n t f) = x :: (xs ++ flattenF f) := by
      simp [flattenF, hx]
    rw [hfl, writeF]
    have hp1 : ∀ y ∈ xs, (y.head == x.head) = true := fun y hy => by
      simp [hxsheads y hy, hxhead]
    have hp2 : ∀ y ∈ flattenF f, (y.head == x.head) = false := by
      intro y hy
      have hmem := flattenF_head_mem_names f y hy
      have hyn : y.head ≠ n := by
        intro hc
        rw [hc] at hmem
        exact hnn hmem
      simp [hxhead, hyn]
    rw [takeWhile_append_all _ xs (flattenF f) hp1,
        dropWhile_append_all _ xs (flattenF f) hp1,
        takeWhile_nil_of_all_false _ _ hp2,
        dropWhile_id_of_all_false _ _ hp2]
    rw [List.append_nil, ← hx]
    rw [buildEntry_entryIdx n t hct, writeF_flattenF f hcf, hxhead]
end

/-- The per-commit tree transformation of `rewrite_submodule_history`:
read the commit's tree into an in-memory index, turn every entry path `p`
into `dir/p`, and write the index back out as a tree (for a single-segment
submodule directory name `dir`). -/
def relocateForest (dir : String) (f : PForest) : PForest :=
  writeF ((flattenF f).map (fun e => ⟨dir, e.head :: e.rest, e.mode, e.oid⟩))

theorem takeWhile_all_true (p : IdxEntry → Bool) (l : List IdxEntry)
    (h : ∀ x ∈ l, p x = true) : l.takeWhile p = l := by
  induction l with
  | nil => simp
  | cons e l ih =>
    have he : p e = true := h e (by simp)
    simp [List.takeWhile_cons, he, ih (fun x hx => h x (by simp [hx]))]

theorem dropWhile_nil_of_all_true (p : IdxEntry → Bool) (l : List IdxEntry)
    (h : ∀ x ∈ l, p x = true) : l.dropWhile p = [] := by
  induction l with
  | nil => simp
  | cons e l ih =>
    have he : p e = true := h e (by simp)
    simp [List.dropWhile_cons, he, ih (fun x hx => h x (by simp [hx]))]

theorem relocateForest_eq (dir : String) (f : PForest)
    (hc : canonF f = true) (hne : flattenF f ≠ []) :
    relocateForest dir f = PForest.cons dir (PTree.node f) PForest.nil := by
  obtain ⟨x, xs, hx⟩ := List.exists_cons_of_ne_nil hne
  have hrw : (flattenF f).map
      (fun e => (⟨dir, e.head :: e.rest, e.mode, e.oid⟩ : IdxEntry))
      = (⟨dir, x.head :: x.rest, x.mode, x.oid⟩ : IdxEntry) ::
        xs.map (fun e => (⟨dir, e.head :: e.rest, e.mode, e.oid⟩ : IdxEntry)) := by
    simp [hx]
  rw [relocateForest, hrw, writeF]
  have hall : ∀ y ∈ xs.map (fun e =>
      (⟨dir, e.head :: e.rest, e.mode, e.oid⟩ : IdxEntry)),
      (y.head == (⟨dir, x.head :: x.rest, x.mode, x.oid⟩ : IdxEntry).head) = true := by
    intro y hy
    simp only [List.mem_map] at hy
    obtain ⟨e, _, he⟩ := hy
    rw [← he]
    simp
  rw [takeWhile_all_true _ _ hall, dropWhile_nil_of_all_true _ _ hall]
  rw [buildEntry]
  rw [List.filterMap_cons]
  simp only [stripHead]
  rw [filterMap_strip_reattach dir xs]
  have hxeta : (⟨x.head, x.rest, x.mode, x.oid⟩ : IdxEntry) = x := rfl
  rw [hxeta, ← hx, writeF_flattenF f hc, writeF]
  simp

theorem relocate_ne_self (dir : String) (f : PForest) :
    PForest.cons dir (PTree.node f) PForest.nil ≠ f := by
  intro h
  have hs := congrArg sizeOf h
  simp at hs
  omega

/-- Typed object IDs. Content addressing over typed payloads means IDs of
distinct object kinds never collide, a tree's ID is determined by its value,
and a blob's by its content; gitlink targets are foreign commit IDs. -/
inductive ObjId where
  | commitId : String → ObjId
  | treeId : PTree → ObjId
  | blobId : String → ObjId
deriving DecidableEq

/-- The object ID git reports for a tree entry (`TreeEntry::id`). -/
def PTree.oidOf : PTree → ObjId
  | .leaf m o => if m = gitlinkMode then .commitId o else .blobId o
  | .node f => .treeId (.node f)

/-- Error kind of a libgit2 error (`git2::ErrorCode`), trimmed to the cases
the source distinguishes. -/
inductive GitErrorCode where
  | notFound
  | generic
deriving DecidableEq

/-- Error subsystem of a libgit2 error (`git2::ErrorClass`), trimmed to the
cases the source distinguishes. -/
inductive GitErrorClass where
  | tree
  | odb
deriving DecidableEq

/-- A libgit2 error as the source observes it: an error kind plus a
subsystem tag. -/
structure GitError where
  code : GitErrorCode
  cls : GitErrorClass
deriving DecidableEq

/-- `Tree::get_path`: descend along the path segments; a missing entry or a
non-directory intermediate yields the `NotFound`/`Tree` error; returns the
terminal entry's filemode together with the entry. -/
def getPath : PForest → List String → Except GitError (Nat × PTree)
  | _, [] => .error ⟨.generic, .odb⟩
  | f, [s] =>
    match f.find? s with
    | none => .error ⟨.notFound, .tree⟩
    | some t => .ok (t.filemode, t)
  | f, s :: s2 :: rest =>
    match f.find? s with
    | none => .error ⟨.notFound, .tree⟩
    | some (.leaf _ _) => .error ⟨.notFound, .tree⟩
    | some (.node f2) => getPath f2 (s2 :: rest)

/-- Outcome of looking up the submodule path in a commit's tree, as the
source classifies it. -/
inductive TreeLookup where
  | found : Nat → PTree → TreeLookup
  | absent : TreeLookup
  | abort : TreeLookup
deriving DecidableEq

/-- The error classification both the dangling-reference auditor and the
parent rewriter apply to `Tree::get_path` results: only the combination
`NotFound`/`Tree` means "the commit has no entry at the submodule path";
any other code or class is a `panic!` (modelled `abort`). -/
def classifyTreeLookup : Except GitError (Nat × PTree) → TreeLookup
  | .ok (m, t) => .found m t
  | .error e => if e.code = .notFound ∧ e.cls = .tree then .absent else .abort

/-- The rewrite map `old_id_to_new` (a `HashMap<Oid, Oid>` in the source)
carrying commit-ID and tree-ID translations. -/
abbrev RWMap := List (ObjId × ObjId)

/-- `HashMap::get`. -/
def lookupRW : RWMap → ObjId → Option ObjId
  | [], _ => none
  | (k', v) :: rest, k => if k' = k then some v else lookupRW rest k

/-- `HashMap::insert` (later entries shadow older ones). -/
def insertRW (m : RWMap) (k v : ObjId) : RWMap := (k, v) :: m

/-- `HashMap::contains_key` / membership in `HashMap::keys`. -/
def rwHasKey (m : RWMap) (k : ObjId) : Bool := (lookupRW m k).isSome

/-- A commit object: tree, parent commit IDs in order, and metadata. -/
structure CommitData where
  tree : PForest
  parents : List Oid
  author : String
  committer : String
  message : String
deriving DecidableEq

/-- The commit object store (`Repository::find_commit` backing). -/
abbrev RepoStore := List (Oid × CommitData)

/-- `Repository::find_commit`. -/
def findCommit : RepoStore → Oid → Option CommitData
  | [], _ => none
  | (o, c) :: rest, oid => if o = oid then some c else findCommit rest oid

/-- Model of the rust-ini `Ini` value: ordered sections keyed by
`Option String` (`none` is the general section), each holding ordered
`key = value` properties. -/
structure IniDoc where
  sections : List (Option String × List (String × String))
deriving DecidableEq

/-- `Ini::delete`: drop the section with the given name. -/
def IniDoc.delete (i : IniDoc) (k : Option String) : IniDoc :=
  ⟨i.sections.filter (fun s => decide (s.1 ≠ k))⟩

/-- `Ini::is_empty`: no sections remain. -/
def IniDoc.isEmpty (i : IniDoc) : Bool := i.sections.isEmpty

/-- Split a character list into lines at newline characters. -/
def splitLinesGo : List Char → List Char → List (List Char)
  | [], acc => [acc.reverse]
  | c :: rest, acc =>
    if c = '\n' then acc.reverse :: splitLinesGo rest []
    else splitLinesGo rest (c :: acc)

/-- All lines of a character list. -/
def splitLines (s : List Char) : List (List Char) := splitLinesGo s []

/-- Horizontal whitespace recognised when trimming INI lines. -/
def isWs (c : Char) : Bool := c = ' ' || c = '\t' || c = '\r'

/-- Trim whitespace from both ends of a line. -/
def trimChars (l : List Char) : List Char :=
  ((l.dropWhile isWs).reverse.dropWhile isWs).reverse

/-- Split a line at the first occurrence of a character. -/
def splitAtChar (c : Char) : List Char → Option (List Char × List Char)
  | [] => none
  | x :: rest =>
    if x = c then some ([], rest)
    else (splitAtChar c rest).map (fun pr => (x :: pr.1, pr.2))

/-- Append a property to a section (creating the section at the end when
absent), mirroring rust-ini's insertion into its ordered section map. -/
def addProp (secs : List (Option String × List (String × String)))
    (key : Option String) (k v : String) :
    List (Option String × List (String × String)) :=
  match secs with
  | [] => [(key, [(k, v)])]
  | (s, props) :: rest =>
    if s = key then (s, props ++ [(k, v)]) :: rest
    else (s, props) :: addProp rest key k v

/-- Make sure a section header exists even when it has no properties yet. -/
def ensureSection (secs : List (Option String × List (String × String)))
    (key : Option String) : List (Option String × List (String × String)) :=
  match secs with
  | [] => [(key, [])]
  | (s, props) :: rest =>
    if s = key then (s, props) :: rest
    else (s, props) :: ensureSection rest key

/-- Parse one INI line given the current section, mirroring
`Ini::read_from`: blank lines and comments are skipped, `[name]` opens a
section, `key = value` adds a property, anything else is a parse error. -/
def parseIniLine (cur : Option String)
    (secs : List (Option String × List (String × String))) (line : List Char) :
    Option (Option String × List (Option String × List (String × String))) :=
  let l := trimChars line
  match l with
  | [] => some (cur, secs)
  | c :: rest =>
    if c = ';' ∨ c = '#' then some (cur, secs)
    else if c = '[' then
      match rest.getLast? with
      | some cl =>
        if cl = ']' then
          let name := String.mk rest.dropLast
          some (some name, ensureSection secs (some name))
        else none
      | none => none
    else
      match splitAtChar '=' (c :: rest) with
      | none => none
      | some (k, v) =>
        some (cur, addProp secs cur (String.mk (trimChars k)) (String.mk (trimChars v)))

/-- Parse a list of INI lines. -/
def parseIniLines (cur : Option String)
    (secs : List (Option String × List (String × String))) :
    List (List Char) → Option (List (Option String × List (String × String)))
  | [] => some secs
  | line :: rest =>
    match parseIniLine cur secs line with
    | none => none
    | some (cur', secs') => parseIniLines cur' secs' rest

/-- `Ini::read_from` on a blob's content. -/
def parseIni (s : String) : Option IniDoc :=
  (parseIniLines none [] (splitLines s.data)).map IniDoc.mk

/-- Serialize one section's properties (`Ini::write_to`). -/
def serializeProps : List (String × String) → String
  | [] => ""
  | (k, v) :: rest => k ++ " = " ++ v ++ "\n" ++ serializeProps rest

/-- Serialize the section list (`Ini::write_to`). -/
def serializeSections : List (Option String × List (String × String)) → String
  | [] => ""
  | (none, props) :: rest => serializeProps props ++ serializeSections rest
  | (some n, props) :: rest =>
    "[" ++ n ++ "]\n" ++ serializeProps props ++ serializeSections rest

/-- `Ini::write_to` into a fresh buffer. -/
def serializeIni (i : IniDoc) : String := serializeSections i.sections

/-- The `.gitmodules` section name removed for the absorbed submodule. -/
def submoduleSection (basename : String) : String :=
  "submodule \"" ++ basename ++ "\""

/-- `update_gitmodules`: edit the `.gitmodules` entry of a root tree, given
the submodule path (its basename names the section). No `.gitmodules`
entry means the tree builder is left untouched; otherwise the section is
deleted from the parsed INI, and the entry is removed when the document
became empty or replaced by the re-serialized blob otherwise. `none` models
the source's `expect` panics (unreadable or unparsable `.gitmodules`). -/
def updateGitmodulesF (f : PForest) (path : List String) : Option PForest :=
  match path.getLast? with
  | none => none
  | some basename =>
    match f.find? ".gitmodules" with
    | none => some f
    | some (.node _) => none
    | some (.leaf m content) =>
      if m = gitlinkMode then none
      else
        match parseIni content with
        | none => none
        | some ini =>
          let ini2 := ini.delete (some (submoduleSection basename))
          if ini2.isEmpty then some (f.removeName ".gitmodules")
          else some (f.setName ".gitmodules" (.leaf m (serializeIni ini2)))

/-- `replace_tree_subdir`: descend along the path segments of the submodule
path, rebuild each intermediate tree bottom-up (keeping the intermediate
entry's filemode, which for a peelable intermediate is the directory mode),
and replace the terminal entry by the given subtree. `none` models the
source's `expect` panics (empty path, missing segment, unpeelable
intermediate). -/
def replaceTreeSubdir (f : PForest) (path : List String) (r : PTree) :
    Option PForest :=
  match path with
  | [] => none
  | [seg] =>
    match f.find? seg with
    | none => none
    | some _ => some ((f.removeName seg).setName seg r)
  | seg :: s2 :: rest =>
    match f.find? seg with
    | none => none
    | some (.leaf _ _) => none
    | some (.node f2) =>
      match replaceTreeSubdir f2 (s2 :: rest) r with
      | none => none
      | some f2' => some ((f.removeName seg).setName seg (.node f2'))

/-- `replace_submodule_dir`: run `update_gitmodules` on the root tree
builder, then `replace_tree_subdir` on the same builder. The root builder
starts from the edited tree, while the descent reads subtrees from the
original tree, exactly as the source does. -/
def replaceSubmoduleDirF (f : PForest) (path : List String) (r : PTree) :
    Option PForest :=
  match updateGitmodulesF f path with
  | none => none
  | some f1 =>
    match path with
    | [] => none
    | [seg] =>
      match f1.find? seg with
      | none => none
      | some _ => some ((f1.removeName seg).setName seg r)
    | seg :: s2 :: rest =>
      match f.find? seg with
      | none => none
      | some (.leaf _ _) => none
      | some (.node f2) =>
        match replaceTreeSubdir f2 (s2 :: rest) r with
        | none => none
        | some f2' =>
          match f1.find? seg with
          | none => none
          | some _ => some ((f1.removeName seg).setName seg (.node f2'))

/-- `HashMap::get` on the user `--mapping` table. -/
def lookupOid : List (Oid × Oid) → Oid → Option Oid
  | [], _ => none
  | (k, v) :: rest, s => if k = s then some v else lookupOid rest s

/-- Resolution of a gitlink target `s` to a rewritten submodule commit ID
in `rewrite_repo_history`: apply the user `--mapping` table, then look the
result up in the rewrite map, falling back to the `--default-mapping`
commit's image; `none` models the `expect`/indexing panics when no default
is set or the default has no image. -/
def resolveGitlink (mappings : List (Oid × Oid)) (m : RWMap)
    (dflt : Option Oid) (s : Oid) : Option Oid :=
  let s1 := match lookupOid mappings s with
    | some id => id
    | none => s
  match lookupRW m (.commitId s1) with
  | some (.commitId nid) => some nid
  | some _ => none
  | none =>
    match dflt with
    | none => none
    | some d =>
      match lookupRW m (.commitId d) with
      | some (.commitId nid) => some nid
      | _ => none

/-- The set `parent_subtree_ids`: the IDs of the entries found at
`submodule_path` in the trees of the commit's parents; a parent lacking the
entry (`NotFound`/`Tree`) contributes nothing; any other lookup error, or a
parent commit missing from the store, aborts (`none`). -/
def parentGitlinkSet (store : RepoStore) (path : List String) :
    List Oid → Option (List ObjId)
  | [] => some []
  | p :: rest =>
    match findCommit store p with
    | none => none
    | some pc =>
      match classifyTreeLookup (getPath pc.tree path) with
      | .found _ t =>
        (parentGitlinkSet store path rest).map (fun s => t.oidOf :: s)
      | .absent => parentGitlinkSet store path rest
      | .abort => none

/-- The rewritten base parent list of a parent-repo commit: each original
parent ID is looked up in the rewrite map with `HashMap::get`; a parent
with no entry is silently omitted (the `else` arm is commented out in the
source); a mapped parent that cannot be found in the store panics. -/
def mapParents (store : RepoStore) (m : RWMap) : List Oid → Option (List Oid)
  | [] => some []
  | p :: rest =>
    match lookupRW m (.commitId p) with
    | none => mapParents store m rest
    | some (.commitId np) =>
      match findCommit store np with
      | none => none
      | some _ => (mapParents store m rest).map (fun l => np :: l)
    | some _ => none

/-- The projection `mapParents` computes pointwise (used to state the
silent-omission property). -/
def mappedParent (m : RWMap) (p : Oid) : Option Oid :=
  match lookupRW m (.commitId p) with
  | some (.commitId np) => some np
  | _ => none

/-- Outcome of processing one commit of the parent walk. -/
inductive RepoStepOut where
  | skipped
  | identityMapped
  | built : CommitData → Bool → RepoStepOut
deriving DecidableEq

/-- One iteration of the `rewrite_repo_history` walk loop on commit
`(oid, c)`, with `newId` the ID the object store assigns to the commit it
writes. Mirrors the source: classify the lookup of `submodule_path` in the
commit's tree (absent entry → record the identity mapping; non-gitlink
entry → skip), resolve the gitlink target, extract the rewritten submodule
subtree, splice it (editing `.gitmodules`), detect whether the commit
updated the submodule, assemble the parent list, and record the new ID.
`none` models the source's panics. -/
def rewriteRepoStep (store : RepoStore) (mappings : List (Oid × Oid))
    (dflt : Option Oid) (path : List String) (newId : Oid)
    (m : RWMap) (oid : Oid) (c : CommitData) :
    Option (RWMap × RepoStepOut) :=
  match classifyTreeLookup (getPath c.tree path) with
  | .abort => none
  | .absent => some (insertRW m (.commitId oid) (.commitId oid), .identityMapped)
  | .found mode entry =>
    if mode ≠ gitlinkMode then some (m, .skipped)
    else
      match entry with
      | .node _ => none
      | .leaf _ s =>
        match resolveGitlink mappings m dflt s with
        | none => none
        | some rs =>
          match findCommit store rs with
          | none => none
          | some subC =>
            match getPath subC.tree path with
            | .error _ => none
            | .ok (_, subEntry) =>
              match subEntry with
              | .leaf _ _ => none
              | .node fsub =>
                match replaceSubmoduleDirF c.tree path (.node fsub) with
                | none => none
                | some newTree =>
                  match parentGitlinkSet store path c.parents with
                  | none => none
                  | some pset =>
                    let upd := !(pset.contains (ObjId.commitId s))
                    match mapParents store m c.parents with
                    | none => none
                    | some base =>
                      some (insertRW m (.commitId oid) (.commitId newId),
                        .built ⟨newTree, base ++ (if upd then [rs] else []),
                          c.author, c.committer, c.message⟩ upd)

/-- The strict parent resolution of `rewrite_submodule_history`:
`old_id_to_new[&parent_id]` panics when a parent has no entry, and
`find_commit` on the image panics when it is not in the store. -/
def mapParentsStrict (store : RepoStore) (m : RWMap) :
    List Oid → Option (List Oid)
  | [] => some []
  | p :: rest =>
    match lookupRW m (.commitId p) with
    | some (.commitId np) =>
      match findCommit store np with
      | none => none
      | some _ => (mapParentsStrict store m rest).map (fun l => np :: l)
    | _ => none

/-- One iteration of the `rewrite_submodule_history` walk loop on commit
`(oid, c)`: relocate the tree under the submodule directory name, record
the tree translation, resolve every parent strictly through the map, build
the new commit with the original author, committer and message, and record
the commit translation (`newId` is the ID the store assigns). -/
def rewriteSubmoduleStep (store : RepoStore) (dir : String) (newId : Oid)
    (m : RWMap) (oid : Oid) (c : CommitData) : Option (RWMap × CommitData) :=
  let newTree := relocateForest dir c.tree
  let m1 := insertRW m (.treeId (.node c.tree)) (.treeId (.node newTree))
  match mapParentsStrict store m1 c.parents with
  | none => none
  | some nps =>
    some (insertRW m1 (.commitId oid) (.commitId newId),
      ⟨newTree, nps, c.author, c.committer, c.message⟩)

/-- One iteration of the `find_dangling_references_to_submodule` walk loop:
a gitlink target is added to the dangling set exactly when it is not a key
of the rewrite map, not a key of the user mappings, and no default mapping
is set; non-gitlink entries and absent entries are skipped; unexpected
lookup errors abort. -/
def danglingStep (known : RWMap) (mappings : List (Oid × Oid))
    (dflt : Option Oid) (path : List String) (acc : List Oid)
    (c : CommitData) : Option (List Oid) :=
  match classifyTreeLookup (getPath c.tree path) with
  | .abort => none
  | .absent => some acc
  | .found mode entry =>
    if mode ≠ gitlinkMode then some acc
    else
      match entry with
      | .node _ => none
      | .leaf _ s =>
        if ¬ rwHasKey known (.commitId s) = true ∧ lookupOid mappings s = none ∧
            dflt = none then
          some (if s ∈ acc then acc else acc ++ [s])
        else some acc

/-- The `find_dangling_references_to_submodule` walk: fold `danglingStep`
over the parent walk's commits, starting from an empty dangling set. -/
def findDanglingGo (store : RepoStore) (known : RWMap)
    (mappings : List (Oid × Oid)) (dflt : Option Oid) (path : List String) :
    List Oid → List Oid → Option (List Oid)
  | [], acc => some acc
  | oid :: rest, acc =>
    match findCommit store oid with
    | none => none
    | some c =>
      match danglingStep known mappings dflt path acc c with
      | none => none
      | some acc' => findDanglingGo store known mappings dflt path rest acc'

/-- `find_dangling_references_to_submodule`: the resulting dangling set (in
first-found order); its members are exactly the IDs the source prints to
standard error before returning `Some`. -/
def findDanglingRefs (store : RepoStore) (known : RWMap)
    (mappings : List (Oid × Oid)) (dflt : Option Oid) (path : List String)
    (walk : List Oid) : Option (List Oid) :=
  findDanglingGo store known mappings dflt path walk []

/-- The `rewrite_repo_history` walk loop: fold `rewriteRepoStep` over the
parent walk, extending the store with each commit written (`freshId`
models the IDs the content-addressed store assigns). -/
def rewriteRepoPhase (freshId : Oid → Oid) (mappings : List (Oid × Oid))
    (dflt : Option Oid) (path : List String) :
    List Oid → RWMap → RepoStore → Option (RWMap × RepoStore)
  | [], m, store => some (m, store)
  | oid :: rest, m, store =>
    match findCommit store oid with
    | none => none
    | some c =>
      match rewriteRepoStep store mappings dflt path (freshId oid) m oid c with
      | none => none
      | some (m', out) =>
        match out with
        | .built nc _ =>
          rewriteRepoPhase freshId mappings dflt path rest m'
            (store ++ [(freshId oid, nc)])
        | _ => rewriteRepoPhase freshId mappings dflt path rest m' store

/-- The repository's references: local branches, and the reference kinds
the engine deliberately never touches. -/
structure Refs where
  branches : List (String × Oid)
  tags : List (String × Oid)
  remotes : List (String × Oid)
  notes : List (String × Oid)
deriving DecidableEq

/-- The reflog message the retargeter writes. -/
def reflogMessage : String := "git-submerge: moving to rewritten history"

/-- Retarget each local branch: peel to its commit ID, index into the
rewrite map (panicking when absent, modelled `none`), and set the branch
with the reflog message. -/
def retargetList (m : RWMap) :
    List (String × Oid) → Option (List ((String × Oid) × String))
  | [] => some []
  | (n, t) :: rest =>
    match lookupRW m (.commitId t) with
    | some (.commitId nt) =>
      (retargetList m rest).map (fun l => ((n, nt), reflogMessage) :: l)
    | _ => none

/-- The branch-retargeting loop at the end of `rewrite_repo_history`: only
local branches are enumerated and moved; tags, remotes and notes are not
visited at all. Returns the new references and the reflog messages. -/
def retargetBranches (m : RWMap) (refs : Refs) : Option (Refs × List String) :=
  (retargetList m refs.branches).map (fun l =>
    (⟨l.map (fun x => x.1), refs.tags, refs.remotes, refs.notes⟩,
      l.map (fun x => x.2)))

/-- Exit code for a successful run. -/
def E_SUCCESS : Int := 0

/-- Exit code when the auditor finds dangling references. -/
def E_FOUND_DANGLING_REFERENCES : Int := 2

/-- Result of the engine tail modelled by `runAfterSubRewrite`. -/
structure EngineResult where
  exitCode : Int
  reported : List Oid
  rwMap : RWMap
  store : RepoStore
  refs : Refs
deriving DecidableEq

/-- The tail of `real_main` after `rewrite_submodule_history`: run the
dangling-reference audit; when the dangling set is non-empty, report its
members and return `E_FOUND_DANGLING_REFERENCES` without touching the
store, the map or any reference; otherwise run `rewrite_repo_history`
(which ends by retargeting the branches). -/
def runAfterSubRewrite (freshId : Oid → Oid) (store : RepoStore) (m : RWMap)
    (mappings : List (Oid × Oid)) (dflt : Option Oid) (path : List String)
    (walk : List Oid) (refs : Refs) : Option EngineResult :=
  match findDanglingRefs store m mappings dflt path walk with
  | none => none
  | some ds =>
    if ds.isEmpty then
      match rewriteRepoPhase freshId mappings dflt path walk m store with
      | none => none
      | some (m', store') =>
        match retargetBranches m' refs with
        | none => none
        | some (refs', _) => some ⟨E_SUCCESS, [], m', store', refs'⟩
    else some ⟨E_FOUND_DANGLING_REFERENCES, ds, m, store, refs⟩

/-- Modelled from the spec: the revision walk itself lives in libgit2, not
in this repository's sources (`get_submodule_revwalk` and
`get_repo_revwalk` only configure `Sort::REVERSE | Sort::TOPOLOGICAL` and
push tips). The spec describes the walk as topological order with a stable
tie-break of commit timestamp then commit ID. A walk graph assigns each
commit a timestamp and a parent list. -/
structure WalkGraph where
  nodes : List (Oid × Nat × List Oid)
deriving DecidableEq

/-- Commit timestamp in a walk graph. -/
def timeOf (g : WalkGraph) (x : Oid) : Nat :=
  match g.nodes.find? (fun nd => nd.1 == x) with
  | some nd => nd.2.1
  | none => 0

/-- Parent list of a commit in a walk graph. -/
def parentsOf (g : WalkGraph) (x : Oid) : List Oid :=
  match g.nodes.find? (fun nd => nd.1 == x) with
  | some nd => nd.2.2
  | none => []

/-- The stable tie-break order of the walk: commit timestamp, then ID. -/
def keyLe (g : WalkGraph) (x y : Oid) : Prop :=
  timeOf g x < timeOf g y ∨ (timeOf g x = timeOf g y ∧ x ≤ y)

/-- A commit is ready to be emitted when it is still pending and all its
parents have already been emitted (parents-first order). -/
def readyIn (g : WalkGraph) (remaining : List Oid) (x : Oid) : Prop :=
  x ∈ remaining ∧ ∀ p ∈ parentsOf g x, p ∉ remaining

/-- `TopoWalk g remaining l`: `l` empties `remaining` in reverse
topological order, always emitting the key-least ready commit, as the spec
describes the configured revision walk. -/
inductive TopoWalk (g : WalkGraph) : List Oid → List Oid → Prop where
  | nil : TopoWalk g [] []
  | step (x : Oid) (remaining l : List Oid) :
      readyIn g remaining x →
      (∀ y, readyIn g remaining y → keyLe g x y) →
      TopoWalk g (remaining.erase x) l →
      TopoWalk g remaining (x :: l)

/-- One closure round when collecting the commits reachable from tips. -/
def expandOnce (g : WalkGraph) (acc : List Oid) : List Oid :=
  acc ++ ((acc.flatMap (parentsOf g)).filter (fun p => decide (p ∉ acc))).dedup

/-- The commits reachable from a tip set (duplicate tips collapse, as in
`Revwalk::push`). -/
def reachableFrom (g : WalkGraph) (tips : List Oid) : List Oid :=
  (expandOnce g)^[g.nodes.length] tips.dedup

theorem topoWalk_unique (g : WalkGraph) (r l1 l2 : List Oid)
    (h1 : TopoWalk g r l1) (h2 : TopoWalk g r l2) : l1 = l2 := by
  induction h1 generalizing l2 with
  | nil =>
    cases h2 with
    | nil => rfl
    | step x remaining l hr hmin hw => exact absurd hr.1 (List.not_mem_nil x)
  | step x remaining l hr hmin hw ih =>
    cases h2 with
    | nil => exact absurd hr.1 (List.not_mem_nil x)
    | step x2 _ l2' hr2 hmin2 hw2 =>
      have hxx : x = x2 := by
        have h12 := hmin x2 hr2
        have h21 := hmin2 x hr
        rcases h12 with hlt | ⟨heq, hle⟩ <;> rcases h21 with hlt2 | ⟨heq2, hle2⟩
        · omega
        · omega
        · omega
        · exact le_antisymm hle hle2
      subst hxx
      exact congrArg (x :: ·) (ih _ hw2)

theorem find?_removeName_self : ∀ (f : PForest) (n : String),
    (f.removeName n).find? n = none
  | .nil, n => by simp [PForest.removeName, PForest.find?]
  | .cons n' t f, n => by
    by_cases h : n' = n
    · simp [PForest.removeName, h, find?_removeName_self f n]
    · simp [PForest.removeName, PForest.find?, h, find?_removeName_self f n]

theorem find?_removeName_other : ∀ (f : PForest) (n n' : String), n' ≠ n →
    (f.removeName n).find? n' = f.find? n'
  | .nil, n, n', _ => by simp [PForest.removeName]
  | .cons n2 t f, n, n', h => by
    have rec := find?_removeName_other f n n' h
    by_cases h2 : n2 = n
    · have h4 : n2 ≠ n' := by rw [h2]; exact Ne.symm h
      simp [PForest.removeName, PForest.find?, h2, h4, rec, Ne.symm h]
    · by_cases h3 : n2 = n'
      · subst h3
        simp [PForest.removeName, PForest.find?, h2, rec]
      · simp [PForest.removeName, PForest.find?, h2, h3, rec]

theorem find?_setName_self : ∀ (f : PForest) (n : String) (t : PTree),
    (f.setName n t).find? n = some t
  | .nil, n, t => by simp [PForest.setName, PForest.find?]
  | .cons n' t' f, n, t => by
    by_cases h : n' = n
    · simp [PForest.setName, PForest.find?, h]
    · simp [PForest.setName, PForest.find?, h, find?_setName_self f n t]

theorem find?_setName_other : ∀ (f : PForest) (n n' : String) (t : PTree),
    n' ≠ n → (f.setName n t).find? n' = f.find? n'
  | .nil, n, n', t, h => by simp [PForest.setName, PForest.find?, Ne.symm h]
  | .cons n2 t' f, n, n', t, h => by
    have rec := find?_setName_other f n n' t h
    by_cases h2 : n2 = n
    · have h4 : n2 ≠ n' := by rw [h2]; exact Ne.symm h
      simp [PForest.setName, PForest.find?, h2, h4, Ne.symm h]
    · by_cases h3 : n2 = n'
      · subst h3
        simp [PForest.setName, PForest.find?, h2, rec]
      · simp [PForest.setName, PForest.find?, h2, h3, rec]

theorem mapParents_eq_filterMap (store : RepoStore) (m : RWMap) :
    ∀ (ps : List Oid) (base : List Oid), mapParents store m ps = some base →
      base = ps.filterMap (mappedParent m)
  | [], base => by
    intro h
    simp only [mapParents] at h
    injection h with h
    rw [← h]
    simp
  | p :: rest, base => by
    intro h
    unfold mapParents at h
    cases hl : lookupRW m (.commitId p) with
    | none =>
      simp only [hl] at h
      simp only [List.filterMap_cons, mappedParent, hl]
      exact mapParents_eq_filterMap store m rest base h
    | some v =>
      cases v with
      | commitId np =>
        simp only [hl] at h
        cases hf : findCommit store np with
        | none => simp [hf] at h
        | some c0 =>
          simp only [hf] at h
          cases hr : mapParents store m rest with
          | none => simp [hr] at h
          | some base0 =>
            simp only [hr, Option.map_some] at h
            injection h with h
            simp only [List.filterMap_cons, mappedParent, hl]
            rw [← h, mapParents_eq_filterMap store m rest base0 hr]
      | treeId t =>
        simp only [hl] at h
        exact absurd h (by simp)
      | blobId b =>
        simp only [hl] at h
        exact absurd h (by simp)

theorem rewriteRepoStep_built_inv (store : RepoStore)
    (mappings : List (Oid × Oid)) (dflt : Option Oid) (path : List String)
    (newId : Oid) (m : RWMap) (oid : Oid) (c : CommitData) (m' : RWMap)
    (nc : CommitData) (upd : Bool)
    (h : rewriteRepoStep store mappings dflt path newId m oid c
      = some (m', .built nc upd)) :
    ∃ s rs pset base newTree,
      resolveGitlink mappings m dflt s = some rs
      ∧ parentGitlinkSet store path c.parents = some pset
      ∧ mapParents store m c.parents = some base
      ∧ upd = !(pset.contains (ObjId.commitId s))
      ∧ m' = insertRW m (.commitId oid) (.commitId newId)
      ∧ nc = ⟨newTree, base ++ (if upd then [rs] else []),
          c.author, c.committer, c.message⟩ := by
  unfold rewriteRepoStep at h
  cases hcl : classifyTreeLookup (getPath c.tree path) with
  | abort => simp [hcl] at h
  | absent => simp [hcl] at h
  | found mode entry =>
    simp only [hcl] at h
    by_cases hmode : mode ≠ gitlinkMode
    · rw [if_pos hmode] at h
      simp at h
    · rw [if_neg hmode] at h
      cases entry with
      | node f0 => simp at h
      | leaf lm s =>
        cases hres : resolveGitlink mappings m dflt s with
        | none => simp [hres] at h
        | some rs =>
          simp only [hres] at h
          cases hfind : findCommit store rs with
          | none => simp [hfind] at h
          | some subC =>
            simp only [hfind] at h
            cases hgp : getPath subC.tree path with
            | error e => simp [hgp] at h
            | ok pr =>
              simp only [hgp] at h
              obtain ⟨md, subEntry⟩ := pr
              cases subEntry with
              | leaf a b => simp at h
              | node fsub =>
                cases hrepl : replaceSubmoduleDirF c.tree path (.node fsub) with
                | none => simp [hrepl] at h
                | some newTree =>
                  simp only [hrepl] at h
                  cases hpset : parentGitlinkSet store path c.parents with
                  | none => simp [hpset] at h
                  | some pset =>
                    simp only [hpset] at h
                    cases hbase : mapParents store m c.parents with
                    | none => simp [hbase] at h
                    | some base =>
                      simp only [hbase, Option.some.injEq, Prod.mk.injEq,
                        RepoStepOut.built.injEq] at h
                      obtain ⟨hm, hnc, hupd⟩ := h
                      subst hupd
                      exact ⟨s, rs, pset, base, newTree, hres, rfl, rfl,
                        rfl, hm.symm, hnc.symm⟩

theorem rewriteRepoStep_built_eq (store : RepoStore)
    (mappings : List (Oid × Oid)) (dflt : Option Oid) (path : List String)
    (newId : Oid) (m : RWMap) (oid : Oid) (c : CommitData) (lm : Nat)
    (s : Oid) (rs : Oid) (subC : CommitData) (md : Nat) (fsub : PForest)
    (newTree : PForest) (pset : List ObjId) (base : List Oid)
    (hgp : getPath c.tree path = .ok (gitlinkMode, .leaf lm s))
    (hres : resolveGitlink mappings m dflt s = some rs)
    (hfind : findCommit store rs = some subC)
    (hsub : getPath subC.tree path = .ok (md, .node fsub))
    (hrepl : replaceSubmoduleDirF c.tree path (.node fsub) = some newTree)
    (hpset : parentGitlinkSet store path c.parents = some pset)
    (hbase : mapParents store m c.parents = some base) :
    rewriteRepoStep store mappings dflt path newId m oid c
      = some (insertRW m (.commitId oid) (.commitId newId),
          .built ⟨newTree,
            base ++ (if !(pset.contains (ObjId.commitId s)) then [rs] else []),
            c.author, c.committer, c.message⟩
            (!(pset.contains (ObjId.commitId s)))) := by
  unfold rewriteRepoStep
  simp only [classifyTreeLookup, hgp, hres, hfind, hsub, hrepl, hpset, hbase,
    ne_eq, not_true_eq_false, if_false, ite_not]

theorem rewriteSubmoduleStep_eq (store : RepoStore) (dir : String)
    (newId : Oid) (m : RWMap) (oid : Oid) (c : CommitData) (nps : List Oid)
    (hp : mapParentsStrict store
      (insertRW m (.treeId (.node c.tree))
        (.treeId (.node (relocateForest dir c.tree)))) c.parents = some nps) :
    rewriteSubmoduleStep store dir newId m oid c
      = some (insertRW
          (insertRW m (.treeId (.node c.tree))
            (.treeId (.node (relocateForest dir c.tree))))
          (.commitId oid) (.commitId newId),
        ⟨relocateForest dir c.tree, nps, c.author, c.committer, c.message⟩) := by
  unfold rewriteSubmoduleStep
  simp [hp]

theorem rewriteSubmoduleStep_inv (store : RepoStore) (dir : String)
    (newId : Oid) (m : RWMap) (oid : Oid) (c : CommitData) (m' : RWMap)
    (nc : CommitData)
    (h : rewriteSubmoduleStep store dir newId m oid c = some (m', nc)) :
    ∃ nps, nc = ⟨relocateForest dir c.tree, nps, c.author, c.committer,
      c.message⟩ := by
  unfold rewriteSubmoduleStep at h
  cases hp : mapParentsStrict store
      (insertRW m (.treeId (.node c.tree))
        (.treeId (.node (relocateForest dir c.tree)))) c.parents with
  | none => simp [hp] at h
  | some nps =>
    simp only [hp, Option.some.injEq, Prod.mk.injEq] at h
    exact ⟨nps, h.2.symm⟩

theorem retargetList_spec (m : RWMap) :
    ∀ (bs : List (String × Oid)) (l : List ((String × Oid) × String)),
      retargetList m bs = some l →
      List.Forall₂ (fun (old : String × Oid) (new : String × Oid) =>
        old.1 = new.1 ∧ lookupRW m (.commitId old.2) = some (.commitId new.2))
        bs (l.map (fun x => x.1))
      ∧ l.map (fun x => x.2) = bs.map (fun _ => reflogMessage)
  | [], l => by
    intro h
    simp only [retargetList] at h
    injection h with h
    rw [← h]
    simp
  | (n, t) :: rest, l => by
    intro h
    unfold retargetList at h
    cases hl : lookupRW m (.commitId t) with
    | none => simp [hl] at h
    | some v =>
      cases v with
      | commitId nt =>
        simp only [hl] at h
        cases hr : retargetList m rest with
        | none => simp [hr] at h
        | some l0 =>
          simp only [hr, Option.map_some', Option.some.injEq] at h
          obtain ⟨ha, hb⟩ := retargetList_spec m rest l0 hr
          rw [← h]
          constructor
          · exact List.Forall₂.cons ⟨rfl, hl⟩ ha
          · simp [hb]
      | treeId t2 => simp [hl] at h
      | blobId b2 => simp [hl] at h

theorem objid_contains_iff (l : List ObjId) (x : ObjId) :
    l.contains x = true ↔ x ∈ l := by
  induction l with
  | nil => simp
  | cons a l ih => simp [List.contains_cons, ih, beq_iff_eq]

/-- Submodule path used by the concrete examples. -/
def exPath : List String := ["sub"]

/-- Tree of the rewritten submodule commit in the examples. -/
def exSubTree : PForest := .cons "f.txt" (.leaf 33188 "hello") .nil

/-- Rewritten submodule commit in the examples. -/
def exS1 : CommitData := ⟨.cons "sub" (.node exSubTree) .nil, [], "ann", "cmt", "sub msg"⟩

/-- Example `.gitmodules` content with a single submodule section. -/
def exGm : String := "[submodule \"sub\"]\npath = sub"

/-- Example parent commit containing the gitlink. -/
def exP1 : CommitData :=
  ⟨.cons ".gitmodules" (.leaf 33188 exGm)
      (.cons "sub" (.leaf gitlinkMode "s1") .nil),
    ["q0", "p0"], "alice", "bob", "msg1"⟩

/-- Example parent of `exP1` with no rewrite-map entry. -/
def exQ0 : CommitData := ⟨.cons "readme" (.leaf 33188 "r") .nil, [], "a0", "c0", "m0"⟩

/-- Example parent of `exP1` with an identity rewrite-map entry. -/
def exP0 : CommitData := ⟨.cons "readme" (.leaf 33188 "r2") .nil, [], "a1", "c1", "m1"⟩

/-- Commit store of the examples. -/
def exStore : RepoStore := [("p1", exP1), ("S1", exS1), ("p0", exP0), ("q0", exQ0)]

/-- Rewrite map of the examples (after the submodule-side rewrite). -/
def exM : RWMap := [(.commitId "s1", .commitId "S1"), (.commitId "p0", .commitId "p0")]

/-- Tree the parent rewriter produces for `exP1`. -/
def exNewTree : PForest := .cons "sub" (.node exSubTree) .nil

/-- Commit the parent rewriter produces for `exP1`. -/
def exNC : CommitData := ⟨exNewTree, ["p0", "S1"], "alice", "bob", "msg1"⟩

/-- Example commit whose tree has a plain directory at the submodule path. -/
def exC1 : CommitData :=
  ⟨.cons "sub" (.node (.cons "f" (.leaf 33188 "x") .nil)) .nil, [], "a", "c", "m"⟩

/-- Example commit whose gitlink points at an unknown submodule commit. -/
def exDangler : CommitData := ⟨.cons "sub" (.leaf gitlinkMode "sX") .nil, [], "a", "c", "m"⟩

/-- Store for the dangling-reference example. -/
def exStoreD : RepoStore := [("pd", exDangler)]

/-- References for the examples. -/
def exRefs : Refs := ⟨[("master", "pd")], [("v1", "t1")], [], []⟩

/-- Example submodule commit for the submodule-side rewrite. -/
def exSc : CommitData := ⟨.cons "a.txt" (.leaf 33188 "x") .nil, [], "sa", "sc", "sm"⟩

/-- C1 counterexample: a parent commit whose tree has an entry at the
submodule path with a non-gitlink mode (a plain directory) is skipped by
the parent rewriter without recording any entry in the rewrite map, so
`M[c] = c` is not established for it; only a commit whose tree lacks the
entry gets the identity mapping. -/
theorem c1_counterexample :
    classifyTreeLookup (getPath exC1.tree exPath)
      = .found subtreeMode (.node (.cons "f" (.leaf 33188 "x") .nil))
    ∧ rewriteRepoStep [] [] none exPath "n0" [] "p0" exC1 = some ([], .skipped)
    ∧ lookupRW [] (ObjId.commitId "p0") = none := by
  decide

/-- C1 (amended): the parent rewriter records the identity entry
`M[c] = c` exactly when the lookup of the submodule path in `c`'s tree
fails with `NotFound`/`Tree` (the entry is missing); when the entry is
present with a non-gitlink mode the commit is skipped and the rewrite map
is left unchanged (no identity entry is recorded). -/
theorem c1_identity_only_when_absent (store : RepoStore)
    (mappings : List (Oid × Oid)) (dflt : Option Oid) (path : List String)
    (newId : Oid) (m : RWMap) (oid : Oid) (c : CommitData) :
    (classifyTreeLookup (getPath c.tree path) = .absent →
      rewriteRepoStep store mappings dflt path newId m oid c
        = some (insertRW m (.commitId oid) (.commitId oid), .identityMapped)
      ∧ lookupRW (insertRW m (.commitId oid) (.commitId oid)) (.commitId oid)
          = some (.commitId oid))
    ∧ (∀ (mode : Nat) (entry : PTree),
      classifyTreeLookup (getPath c.tree path) = .found mode entry →
      mode ≠ gitlinkMode →
      rewriteRepoStep store mappings dflt path newId m oid c
        = some (m, .skipped)) := by
  constructor
  · intro h
    constructor
    · unfold rewriteRepoStep
      simp [h]
    · simp [insertRW, lookupRW]
  · intro mode entry h hm
    unfold rewriteRepoStep
    simp [h, hm]

/-- C1 witness: the amended statement evaluated at the example commits. -/
theorem c1_witness :
    rewriteRepoStep [] [] none exPath "n0" [] "q0" exQ0
      = some (insertRW [] (.commitId "q0") (.commitId "q0"), .identityMapped)
    ∧ rewriteRepoStep [] [] none exPath "n0" [] "p0" exC1
      = some ([], .skipped) :=
  ⟨((c1_identity_only_when_absent [] [] none exPath "n0" [] "q0" exQ0).1
      (by decide)).1,
    (c1_identity_only_when_absent [] [] none exPath "n0" [] "p0" exC1).2
      subtreeMode (.node (.cons "f" (.leaf 33188 "x") .nil))
      (by decide) (by decide)⟩

/-- C2: for a parent commit whose tree has a gitlink with target `s` at
the submodule path (and whose resolution, splice and parent analyses
succeed), the commit is classified as a submodule update iff `s` is not in
the set `S` of the targets found at the submodule path across its parents
(parents lacking the entry contribute nothing), and exactly when it is an
update exactly one extra parent — the rewritten submodule commit `rs`
resolved for `s` — is appended to the rewritten commit's parent list. -/
theorem c2_update_detection (store : RepoStore) (mappings : List (Oid × Oid))
    (dflt : Option Oid) (path : List String) (newId : Oid) (m : RWMap)
    (oid : Oid) (c : CommitData) (lm : Nat) (s rs : Oid) (subC : CommitData)
    (md : Nat) (fsub : PForest) (newTree : PForest) (pset : List ObjId)
    (base : List Oid)
    (hgp : getPath c.tree path = .ok (gitlinkMode, .leaf lm s))
    (hres : resolveGitlink mappings m dflt s = some rs)
    (hfind : findCommit store rs = some subC)
    (hsub : getPath subC.tree path = .ok (md, .node fsub))
    (hrepl : replaceSubmoduleDirF c.tree path (.node fsub) = some newTree)
    (hpset : parentGitlinkSet store path c.parents = some pset)
    (hbase : mapParents store m c.parents = some base) :
    ∃ (nc : CommitData) (upd : Bool),
      rewriteRepoStep store mappings dflt path newId m oid c
        = some (insertRW m (.commitId oid) (.commitId newId), .built nc upd)
      ∧ (upd = true ↔ ObjId.commitId s ∉ pset)
      ∧ nc.parents = base ++ (if upd then [rs] else [])
      ∧ (upd = true → nc.parents = base ++ [rs])
      ∧ (upd = false → nc.parents = base) := by
  refine ⟨_, _, rewriteRepoStep_built_eq store mappings dflt path newId m oid
    c lm s rs subC md fsub newTree pset base hgp hres hfind hsub hrepl hpset
    hbase, ?_, rfl, ?_, ?_⟩
  · constructor
    · intro h hc
      have hco : pset.contains (ObjId.commitId s) = true :=
        (objid_contains_iff pset (ObjId.commitId s)).mpr hc
      have h' : pset.contains (ObjId.commitId s) = false := by
        simpa using h
      rw [h'] at hco
      simp at hco
    · intro h
      have h' : pset.contains (ObjId.commitId s) = false := by
        cases hpc : pset.contains (ObjId.commitId s) with
        | false => rfl
        | true =>
          exact absurd ((objid_contains_iff pset (ObjId.commitId s)).mp hpc) h
      rw [h']
      rfl
  · intro h
    rw [if_pos h]
  · intro h
    have hc : pset.contains (ObjId.commitId s) = true := by simpa using h
    have h2 : ¬ ((!pset.contains (ObjId.commitId s)) = true) := by
      simp
      exact (objid_contains_iff pset (ObjId.commitId s)).mp hc
    rw [if_neg h2]
    simp

/-- C2 witness: the update-detection statement evaluated at the example
scenario (a gitlink advance with one mapped and one unmapped parent). -/
theorem c2_witness :
    ∃ (nc : CommitData) (upd : Bool),
      rewriteRepoStep exStore [] none exPath "P1" exM "p1" exP1
        = some (insertRW exM (.commitId "p1") (.commitId "P1"), .built nc upd)
      ∧ (upd = true ↔ ObjId.commitId "s1" ∉ ([] : List ObjId))
      ∧ nc.parents = ["p0"] ++ (if upd then ["S1"] else [])
      ∧ (upd = true → nc.parents = ["p0"] ++ ["S1"])
      ∧ (upd = false → nc.parents = ["p0"]) :=
  c2_update_detection exStore [] none exPath "P1" exM "p1" exP1
    gitlinkMode "s1" "S1" exS1 subtreeMode exSubTree exNewTree [] ["p0"]
    (by rfl) (by decide) (by decide) (by rfl) (by decide) (by decide)
    (by decide)

/-- C3: during the dangling-reference audit, a gitlink target `s` found at
the submodule path is added to the dangling set iff it is not a key of the
rewrite map, not a key of the explicit mappings, and no default mapping is
set; and when the audit's dangling set is non-empty the engine tail
reports exactly that set and stops with exit code 2
(`E_FOUND_DANGLING_REFERENCES`) with the store, the rewrite map and all
references untouched — before any parent-side rewriting. -/
theorem c3_dangling_audit :
    (∀ (known : RWMap) (mappings : List (Oid × Oid)) (dflt : Option Oid)
      (path : List String) (acc : List Oid) (c : CommitData) (lm : Nat)
      (s : Oid) (acc' : List Oid),
      getPath c.tree path = .ok (gitlinkMode, .leaf lm s) →
      danglingStep known mappings dflt path acc c = some acc' →
      (s ∈ acc' ↔ s ∈ acc ∨ (rwHasKey known (.commitId s) = false
        ∧ lookupOid mappings s = none ∧ dflt = none)))
    ∧ (∀ (freshId : Oid → Oid) (store : RepoStore) (m : RWMap)
      (mappings : List (Oid × Oid)) (dflt : Option Oid) (path : List String)
      (walk : List Oid) (refs : Refs) (ds : List Oid),
      findDanglingRefs store m mappings dflt path walk = some ds → ds ≠ [] →
      runAfterSubRewrite freshId store m mappings dflt path walk refs
        = some ⟨E_FOUND_DANGLING_REFERENCES, ds, m, store, refs⟩) := by
  constructor
  · intro known mappings dflt path acc c lm s acc' hgp hstep
    unfold danglingStep at hstep
    rw [hgp] at hstep
    simp only [classifyTreeLookup, ne_eq, not_true_eq_false, if_false,
      ite_not] at hstep
    by_cases hcond : ¬ rwHasKey known (.commitId s) = true
        ∧ lookupOid mappings s = none ∧ dflt = none
    · rw [if_pos hcond] at hstep
      injection hstep with hstep
      rw [← hstep]
      have hkey : rwHasKey known (.commitId s) = false := by
        cases hk : rwHasKey known (.commitId s) with
        | false => rfl
        | true => exact absurd hk hcond.1
      by_cases hin : s ∈ acc
      · simp [hin]
      · simp [hin, hkey, hcond.2.1, hcond.2.2]
    · rw [if_neg hcond] at hstep
      injection hstep with hstep
      rw [← hstep]
      constructor
      · intro h
        exact Or.inl h
      · intro h
        rcases h with h | ⟨h1, h2, h3⟩
        · exact h
        · exact absurd ⟨by simp [h1], h2, h3⟩ hcond
  · intro freshId store m mappings dflt path walk refs ds hfind hne
    unfold runAfterSubRewrite
    simp only [hfind]
    have : ds.isEmpty = false := by
      cases ds with
      | nil => exact absurd rfl hne
      | cons a l => rfl
    rw [this]
    simp

/-- C3 witness: the audit statement evaluated on a parent commit whose
gitlink points at an unknown submodule commit with no mappings given. -/
theorem c3_witness :
    ("sX" ∈ ["sX"] ↔ "sX" ∈ ([] : List Oid)
      ∨ (rwHasKey [] (.commitId "sX") = false
        ∧ lookupOid [] "sX" = none ∧ (none : Option Oid) = none))
    ∧ runAfterSubRewrite id exStoreD [] [] none exPath ["pd"] exRefs
        = some ⟨E_FOUND_DANGLING_REFERENCES, ["sX"], [], exStoreD, exRefs⟩ :=
  ⟨c3_dangling_audit.1 [] [] none exPath [] exDangler gitlinkMode "sX" ["sX"]
      (by rfl) (by decide),
    c3_dangling_audit.2 id exStoreD [] [] none exPath ["pd"] exRefs ["sX"]
      (by decide) (by decide)⟩

/-- C4 counterexample: relocating the empty tree under the submodule
directory name yields the empty tree again: the result has no entry named
after the prefix, and the rewritten tree ID recorded in the map equals its
input tree ID. -/
theorem c4_counterexample :
    relocateForest "sub" PForest.nil = PForest.nil
    ∧ PTree.node (relocateForest "sub" PForest.nil) = PTree.node PForest.nil
    ∧ relocateForest "sub" PForest.nil
        ≠ PForest.cons "sub" (PTree.node PForest.nil) PForest.nil := by
  have h : relocateForest "sub" PForest.nil = PForest.nil := by
    simp [relocateForest, flattenF, writeF]
  refine ⟨h, by rw [h], ?_⟩
  rw [h]
  intro hc
  exact PForest.noConfusion hc

/-- C4 (amended): for every canonical tree with at least one index entry
(every nonempty tree a git repository can contain), relocating it under the
single-segment prefix yields a tree with exactly one entry, named after the
prefix, whose subtree is the input tree itself (same object ID), and the
rewritten tree ID differs from the input tree ID; the empty tree is the
exception, where the result equals the input. -/
theorem c4_relocate_canonical (dir : String) (f : PForest)
    (hc : canonF f = true) (hne : flattenF f ≠ []) :
    relocateForest dir f = PForest.cons dir (PTree.node f) PForest.nil
    ∧ PTree.node (relocateForest dir f) ≠ PTree.node f := by
  have h1 := relocateForest_eq dir f hc hne
  refine ⟨h1, ?_⟩
  rw [h1]
  intro hcontra
  injection hcontra with h2
  exact relocate_ne_self dir f h2

/-- C4 witness: the amended statement evaluated on a one-file tree. -/
theorem c4_witness :
    relocateForest "sub" (.cons "a.txt" (.leaf 33188 "hello") .nil)
      = .cons "sub" (.node (.cons "a.txt" (.leaf 33188 "hello") .nil)) .nil
    ∧ PTree.node (relocateForest "sub"
        (.cons "a.txt" (.leaf 33188 "hello") .nil))
      ≠ PTree.node (.cons "a.txt" (.leaf 33188 "hello") .nil) :=
  c4_relocate_canonical "sub" (.cons "a.txt" (.leaf 33188 "hello") .nil)
    (by decide) (by simp [flattenF, entryIdx])

/-- C5: the `.gitmodules` edit, given a root tree and the submodule path
(whose basename is `b`), leaves every other entry of the tree unchanged and
removes exactly the section `submodule "b"` from the parsed `.gitmodules`;
when the edited document is empty the `.gitmodules` entry is deleted from
the tree entirely, otherwise the entry becomes a blob of the re-serialized
document (with its filemode kept); and when the tree has no `.gitmodules`
the transformation is the identity. -/
theorem c5_update_gitmodules (f : PForest) (path : List String) (b : String)
    (hb : path.getLast? = some b) :
    (f.find? ".gitmodules" = none → updateGitmodulesF f path = some f)
    ∧ (∀ (fm : Nat) (content : String) (ini : IniDoc) (f' : PForest),
      f.find? ".gitmodules" = some (.leaf fm content) →
      fm ≠ gitlinkMode →
      parseIni content = some ini →
      updateGitmodulesF f path = some f' →
      (∀ n, n ≠ ".gitmodules" → f'.find? n = f.find? n)
      ∧ (ini.delete (some (submoduleSection b))).sections
          = ini.sections.filter
              (fun sec => decide (sec.1 ≠ some (submoduleSection b)))
      ∧ (∀ sec ∈ (ini.delete (some (submoduleSection b))).sections,
          sec.1 ≠ some (submoduleSection b))
      ∧ ((ini.delete (some (submoduleSection b))).isEmpty = true →
          f'.find? ".gitmodules" = none)
      ∧ ((ini.delete (some (submoduleSection b))).isEmpty = false →
          f'.find? ".gitmodules"
            = some (.leaf fm (serializeIni
                (ini.delete (some (submoduleSection b))))))) := by
  constructor
  · intro h
    unfold updateGitmodulesF
    simp only [hb, h]
  · intro fm content ini f' hfind hfm hparse hupd
    unfold updateGitmodulesF at hupd
    simp only [hb, hfind, hparse] at hupd
    rw [if_neg hfm] at hupd
    have hdel : ∀ sec ∈ (ini.delete (some (submoduleSection b))).sections,
        sec.1 ≠ some (submoduleSection b) := by
      intro sec hmem
      simp only [IniDoc.delete, List.mem_filter, decide_eq_true_eq] at hmem
      exact hmem.2
    by_cases he : (ini.delete (some (submoduleSection b))).isEmpty = true
    · rw [if_pos he] at hupd
      injection hupd with hupd
      refine ⟨?_, rfl, hdel, ?_, ?_⟩
      · intro n hn
        rw [← hupd]
        exact find?_removeName_other f ".gitmodules" n hn
      · intro _
        rw [← hupd]
        exact find?_removeName_self f ".gitmodules"
      · intro hfalse
        rw [he] at hfalse
        exact absurd hfalse (by simp)
    · rw [if_neg he] at hupd
      injection hupd with hupd
      refine ⟨?_, rfl, hdel, ?_, ?_⟩
      · intro n hn
        rw [← hupd]
        exact find?_setName_other f ".gitmodules" n _ hn
      · intro htrue
        exact absurd htrue he
      · intro _
        rw [← hupd]
        exact find?_setName_self f ".gitmodules" _

/-- The `.gitmodules` content of the C5 witness: two submodule sections. -/
def exGm2 : String :=
  "[submodule \"sub\"]\npath = sub\n[submodule \"other\"]\npath = other"

/-- The parsed form of `exGm2`. -/
def exIni2 : IniDoc :=
  ⟨[(some "submodule \"sub\"", [("path", "sub")]),
    (some "submodule \"other\"", [("path", "other")])]⟩

/-- The root tree of the C5 witness. -/
def exF5 : PForest :=
  .cons ".gitmodules" (.leaf 33188 exGm2)
    (.cons "other.txt" (.leaf 33188 "t") .nil)

/-- The edited root tree of the C5 witness. -/
def exF5' : PForest :=
  .cons ".gitmodules"
    (.leaf 33188 "[submodule \"other\"]\npath = other\n")
    (.cons "other.txt" (.leaf 33188 "t") .nil)

/-- C5 witness: the `.gitmodules` edit evaluated on a two-section file —
only the absorbed submodule's section is dropped, other entries and the
other section survive. -/
theorem c5_witness :
    updateGitmodulesF exF5 ["sub"] = some exF5'
    ∧ exF5'.find? ".gitmodules"
        = some (.leaf 33188 (serializeIni
            (exIni2.delete (some (submoduleSection "sub")))))
    ∧ exF5'.find? "other.txt" = exF5.find? "other.txt" := by
  refine ⟨by decide, ?_, ?_⟩
  · exact (((c5_update_gitmodules exF5 ["sub"] "sub" (by decide)).2
      33188 exGm2 exIni2 exF5' (by decide) (by decide) (by decide)
      (by decide)).2.2.2.2) (by decide)
  · exact (((c5_update_gitmodules exF5 ["sub"] "sub" (by decide)).2
      33188 exGm2 exIni2 exF5' (by decide) (by decide) (by decide)
      (by decide)).1) "other.txt" (by decide)

/-- C6: every commit that the submodule rewriter or the parent rewriter
gives a rewritten counterpart keeps its author, committer and message
unchanged in the counterpart. -/
theorem c6_metadata_preserved :
    (∀ (store : RepoStore) (mappings : List (Oid × Oid)) (dflt : Option Oid)
      (path : List String) (newId : Oid) (m : RWMap) (oid : Oid)
      (c : CommitData) (m' : RWMap) (nc : CommitData) (upd : Bool),
      rewriteRepoStep store mappings dflt path newId m oid c
        = some (m', .built nc upd) →
      nc.author = c.author ∧ nc.committer = c.committer
        ∧ nc.message = c.message)
    ∧ (∀ (store : RepoStore) (dir : String) (newId : Oid) (m : RWMap)
      (oid : Oid) (c : CommitData) (m' : RWMap) (nc : CommitData),
      rewriteSubmoduleStep store dir newId m oid c = some (m', nc) →
      nc.author = c.author ∧ nc.committer = c.committer
        ∧ nc.message = c.message) := by
  constructor
  · intro store mappings dflt path newId m oid c m' nc upd h
    obtain ⟨s, rs, pset, base, newTree, _, _, _, _, _, hnc⟩ :=
      rewriteRepoStep_built_inv store mappings dflt path newId m oid c m'
        nc upd h
    rw [hnc]
    exact ⟨rfl, rfl, rfl⟩
  · intro store dir newId m oid c m' nc h
    obtain ⟨nps, hnc⟩ := rewriteSubmoduleStep_inv store dir newId m oid c m'
      nc h
    rw [hnc]
    exact ⟨rfl, rfl, rfl⟩

/-- C6 witness: metadata preservation evaluated on the example parent
commit and an example submodule commit. -/
theorem c6_witness :
    (exNC.author = exP1.author ∧ exNC.committer = exP1.committer
      ∧ exNC.message = exP1.message)
    ∧ ((⟨relocateForest "sub" exSc.tree, [], "sa", "sc", "sm"⟩
        : CommitData).author = exSc.author
      ∧ (⟨relocateForest "sub" exSc.tree, [], "sa", "sc", "sm"⟩
        : CommitData).committer = exSc.committer
      ∧ (⟨relocateForest "sub" exSc.tree, [], "sa", "sc", "sm"⟩
        : CommitData).message = exSc.message) :=
  ⟨c6_metadata_preserved.1 exStore [] none exPath "P1" exM "p1" exP1
      (insertRW exM (.commitId "p1") (.commitId "P1")) exNC true (by decide),
    c6_metadata_preserved.2 [] "sub" "S1" [] "s1" exSc
      (insertRW
        (insertRW [] (.treeId (.node exSc.tree))
          (.treeId (.node (relocateForest "sub" exSc.tree))))
        (.commitId "s1") (.commitId "S1"))
      ⟨relocateForest "sub" exSc.tree, [], "sa", "sc", "sm"⟩
      (rewriteSubmoduleStep_eq [] "sub" "S1" [] "s1" exSc [] rfl)⟩

/-- C7: after retargeting, every local branch that pointed at commit `t`
points at `M[t]`, each move carries the reflog message identifying the
tool, and the non-branch references (tags, remotes, notes) are exactly the
ones the engine started with. -/
theorem c7_retarget_branches (m : RWMap) (refs refs' : Refs)
    (logs : List String)
    (h : retargetBranches m refs = some (refs', logs)) :
    refs'.tags = refs.tags ∧ refs'.remotes = refs.remotes
    ∧ refs'.notes = refs.notes
    ∧ logs = refs.branches.map (fun _ => reflogMessage)
    ∧ List.Forall₂ (fun (old : String × Oid) (new : String × Oid) =>
        old.1 = new.1 ∧ lookupRW m (.commitId old.2) = some (.commitId new.2))
        refs.branches refs'.branches := by
  unfold retargetBranches at h
  cases hl : retargetList m refs.branches with
  | none => simp [hl] at h
  | some l =>
    simp only [hl, Option.map_some', Option.some.injEq] at h
    obtain ⟨ha, hb⟩ := retargetList_spec m refs.branches l hl
    injection h with h1 h2
    rw [← h1, ← h2]
    exact ⟨rfl, rfl, rfl, hb.symm ▸ rfl, ha⟩

/-- C7 witness: retargeting evaluated on one branch plus a tag; the branch
moves to its image under the map, the tag is untouched. -/
theorem c7_witness :
    (⟨[("master", "B1")], [("v1", "t1")], [], []⟩ : Refs).tags
        = (⟨[("master", "b1")], [("v1", "t1")], [], []⟩ : Refs).tags
    ∧ (⟨[("master", "B1")], [("v1", "t1")], [], []⟩ : Refs).remotes
        = (⟨[("master", "b1")], [("v1", "t1")], [], []⟩ : Refs).remotes
    ∧ (⟨[("master", "B1")], [("v1", "t1")], [], []⟩ : Refs).notes
        = (⟨[("master", "b1")], [("v1", "t1")], [], []⟩ : Refs).notes
    ∧ [reflogMessage] = (⟨[("master", "b1")], [("v1", "t1")], [], []⟩
        : Refs).branches.map (fun _ => reflogMessage)
    ∧ List.Forall₂ (fun (old : String × Oid) (new : String × Oid) =>
        old.1 = new.1
        ∧ lookupRW [(ObjId.commitId "b1", ObjId.commitId "B1")]
            (.commitId old.2) = some (.commitId new.2))
        (⟨[("master", "b1")], [("v1", "t1")], [], []⟩ : Refs).branches
        (⟨[("master", "B1")], [("v1", "t1")], [], []⟩ : Refs).branches :=
  c7_retarget_branches [(ObjId.commitId "b1", ObjId.commitId "B1")]
    ⟨[("master", "b1")], [("v1", "t1")], [], []⟩
    ⟨[("master", "B1")], [("v1", "t1")], [], []⟩
    [reflogMessage] (by decide)

/-- C8: two runs of the walk over the same graph and the same tip set
produce the same sequence: topological order with the stable tie-break
(commit timestamp, then commit ID) fully orders the walk, so the emitted
sequence is unique. -/
theorem c8_walk_deterministic (g1 g2 : WalkGraph) (tips1 tips2 : List Oid)
    (l1 l2 : List Oid) (hg : g1 = g2) (ht : tips1 = tips2)
    (h1 : TopoWalk g1 (reachableFrom g1 tips1) l1)
    (h2 : TopoWalk g2 (reachableFrom g2 tips2) l2) : l1 = l2 := by
  subst hg
  subst ht
  exact topoWalk_unique g1 (reachableFrom g1 tips1) l1 l2 h1 h2

/-- Walk graph of the C8 witness: two commits, `b` a child of `a`. -/
def exWG : WalkGraph := ⟨[("a", 1, []), ("b", 1, ["a"])]⟩

theorem exWG_walk : TopoWalk exWG (reachableFrom exWG ["b", "a"]) ["a", "b"] := by
  have hre : reachableFrom exWG ["b", "a"] = ["b", "a"] := by decide
  rw [hre]
  refine .step "a" _ _ ⟨by decide, by decide⟩ ?_ ?_
  · intro y hy
    have hmem := hy.1
    simp only [List.mem_cons, List.mem_singleton] at hmem
    rcases hmem with rfl | hmem
    · exact absurd (by decide : ("a" : Oid) ∈ ["b", "a"]) (hy.2 "a" (by decide))
    · rcases hmem with rfl | hfalse
      · exact Or.inr ⟨rfl, le_refl _⟩
      · exact absurd hfalse (List.not_mem_nil y)
  · have he : (["b", "a"] : List Oid).erase "a" = ["b"] := by decide
    rw [he]
    refine .step "b" _ _ ⟨by decide, by decide⟩ ?_ ?_
    · intro y hy
      have hmem := hy.1
      simp only [List.mem_singleton] at hmem
      subst hmem
      exact Or.inr ⟨rfl, le_refl _⟩
    · have he2 : (["b"] : List Oid).erase "b" = [] := by decide
      rw [he2]
      exact .nil

/-- C8 witness: walk determinism applied at a concrete two-commit graph
with equal timestamps (the ID tie-break decides the order). -/
theorem c8_witness : (["a", "b"] : List Oid) = ["a", "b"] :=
  c8_walk_deterministic exWG exWG ["b", "a"] ["b", "a"] ["a", "b"] ["a", "b"]
    rfl rfl exWG_walk exWG_walk

/-- C9: exactly the error combination kind `NotFound` and class `Tree` is
classified as "the entry is absent" when looking up the submodule path in
a commit's tree; the parent rewriter handles absence by identity-mapping
and the auditor by skipping, while every other error kind or class makes
both walkers abort. -/
theorem c9_error_classification :
    (∀ e : GitError, classifyTreeLookup (.error e) = .absent
      ↔ e = ⟨.notFound, .tree⟩)
    ∧ (∀ e : GitError, e ≠ ⟨.notFound, .tree⟩ →
      classifyTreeLookup (.error e) = .abort)
    ∧ (∀ (store : RepoStore) (mappings : List (Oid × Oid)) (dflt : Option Oid)
      (path : List String) (newId : Oid) (m : RWMap) (oid : Oid)
      (c : CommitData),
      classifyTreeLookup (getPath c.tree path) = .absent →
      rewriteRepoStep store mappings dflt path newId m oid c
        = some (insertRW m (.commitId oid) (.commitId oid), .identityMapped))
    ∧ (∀ (known : RWMap) (mappings : List (Oid × Oid)) (dflt : Option Oid)
      (path : List String) (acc : List Oid) (c : CommitData),
      classifyTreeLookup (getPath c.tree path) = .absent →
      danglingStep known mappings dflt path acc c = some acc)
    ∧ (∀ (store : RepoStore) (mappings : List (Oid × Oid)) (dflt : Option Oid)
      (path : List String) (newId : Oid) (m : RWMap) (oid : Oid)
      (c : CommitData),
      classifyTreeLookup (getPath c.tree path) = .abort →
      rewriteRepoStep store mappings dflt path newId m oid c = none)
    ∧ (∀ (known : RWMap) (mappings : List (Oid × Oid)) (dflt : Option Oid)
      (path : List String) (acc : List Oid) (c : CommitData),
      classifyTreeLookup (getPath c.tree path) = .abort →
      danglingStep known mappings dflt path acc c = none) := by
  refine ⟨?_, ?_, ?_, ?_, ?_, ?_⟩
  · intro e
    obtain ⟨code, cls⟩ := e
    cases code <;> cases cls <;> simp [classifyTreeLookup]
  · intro e he
    obtain ⟨code, cls⟩ := e
    cases code <;> cases cls <;> simp_all [classifyTreeLookup]
  · intro store mappings dflt path newId m oid c h
    unfold rewriteRepoStep
    simp [h]
  · intro known mappings dflt path acc c h
    unfold danglingStep
    simp [h]
  · intro store mappings dflt path newId m oid c h
    unfold rewriteRepoStep
    simp [h]
  · intro known mappings dflt path acc c h
    unfold danglingStep
    simp [h]

/-- C9 witness: the classification evaluated at the two error kinds and at
a commit lacking the submodule path entry. -/
theorem c9_witness :
    classifyTreeLookup (.error ⟨.notFound, .tree⟩) = .absent
    ∧ classifyTreeLookup (.error ⟨.notFound, .odb⟩) = .abort
    ∧ classifyTreeLookup (.error ⟨.generic, .tree⟩) = .abort
    ∧ danglingStep [] [] none exPath ["z"] exQ0 = some ["z"] :=
  ⟨(c9_error_classification.1 ⟨.notFound, .tree⟩).mpr rfl,
    c9_error_classification.2.1 ⟨.notFound, .odb⟩ (by decide),
    c9_error_classification.2.1 ⟨.generic, .tree⟩ (by decide),
    c9_error_classification.2.2.2.1 [] [] none exPath ["z"] exQ0 (by decide)⟩

/-- C10: when the parent rewriter builds the rewritten parent list of a
commit containing the gitlink, an original parent whose ID has no entry in
the rewrite map is silently omitted (processing continues, no error), the
surviving parents keep their relative order (the list is the in-order
`filterMap` of the map lookups), and at most the one extra submodule
parent is appended. -/
theorem c10_missing_parent_omitted :
    (∀ (store : RepoStore) (m : RWMap) (p : Oid) (rest : List Oid),
      lookupRW m (.commitId p) = none →
      mapParents store m (p :: rest) = mapParents store m rest)
    ∧ (∀ (store : RepoStore) (m : RWMap) (ps base : List Oid),
      mapParents store m ps = some base →
      base = ps.filterMap (mappedParent m))
    ∧ (∀ (store : RepoStore) (mappings : List (Oid × Oid)) (dflt : Option Oid)
      (path : List String) (newId : Oid) (m : RWMap) (oid : Oid)
      (c : CommitData) (m' : RWMap) (nc : CommitData) (upd : Bool),
      rewriteRepoStep store mappings dflt path newId m oid c
        = some (m', .built nc upd) →
      ∃ rs, nc.parents
        = c.parents.filterMap (mappedParent m)
          ++ (if upd then [rs] else [])) := by
  refine ⟨?_, ?_, ?_⟩
  · intro store m p rest h
    conv_lhs => rw [mapParents]
    simp [h]
  · intro store m ps base h
    exact mapParents_eq_filterMap store m ps base h
  · intro store mappings dflt path newId m oid c m' nc upd h
    obtain ⟨s, rs, pset, base, newTree, _, _, hbase, _, _, hnc⟩ :=
      rewriteRepoStep_built_inv store mappings dflt path newId m oid c m'
        nc upd h
    refine ⟨rs, ?_⟩
    rw [hnc]
    have hb := mapParents_eq_filterMap store m c.parents base hbase
    rw [← hb]

/-- C10 witness: the omission statement evaluated at the example commit
`exP1`, whose parent `q0` has no rewrite-map entry and is dropped while
`p0` survives. -/
theorem c10_witness :
    mapParents exStore exM ["q0", "p0"] = mapParents exStore exM ["p0"]
    ∧ ["p0"] = (["q0", "p0"] : List Oid).filterMap (mappedParent exM)
    ∧ ∃ rs, exNC.parents
        = exP1.parents.filterMap (mappedParent exM)
          ++ (if true then [rs] else []) :=
  ⟨c10_missing_parent_omitted.1 exStore exM "q0" ["p0"] (by decide),
    c10_missing_parent_omitted.2.1 exStore exM ["q0", "p0"] ["p0"] (by decide),
    c10_missing_parent_omitted.2.2 exStore [] none exPath "P1" exM "p1" exP1
      (insertRW exM (.commitId "p1") (.commitId "P1")) exNC true (by decide)⟩
